import Mathlib

/-!
Verification of the item-based collaborative-filtering recommender
(`src/models/predict_model2.py`, `src/models/train_model2.py`,
`src/models/mlflow_model.py`) against its natural-language specification.

The Python code is shallowly embedded: pandas/numpy float computations are
modelled over `ℚ` (exact arithmetic), the NDCG metric over an ordered field
parameter instantiated at `ℝ`, and database tables as lists of rows.
-/

namespace RecoFilms

/-! ## Generic sorting utilities

`ORDER BY … DESC` / `sort_values(ascending=False)` / Python `sorted(…,
reverse=True)` are modelled by a stable insertion sort on a `ℚ`-valued key,
descending; pandas `groupby` key ordering (ascending) by an ascending sort
on `ℕ`. -/

/-- Insert `x` into a descending-sorted list, after existing entries with an
equal or larger key (stable descending insertion). -/
def insertDesc {α : Type} (key : α → ℚ) (x : α) : List α → List α
  | [] => [x]
  | y :: ys => if key y < key x then x :: y :: ys else y :: insertDesc key x ys

/-- Stable insertion sort by descending `ℚ` key. -/
def sortDesc {α : Type} (key : α → ℚ) : List α → List α
  | [] => []
  | x :: xs => insertDesc key x (sortDesc key xs)

/-- Insert a natural number into an ascending-sorted list. -/
def insertAscNat (x : ℕ) : List ℕ → List ℕ
  | [] => [x]
  | y :: ys => if x < y then x :: y :: ys else y :: insertAscNat x ys

/-- Ascending sort on `ℕ` (models the sorted group keys of pandas `groupby`). -/
def sortAscNat : List ℕ → List ℕ
  | [] => []
  | x :: xs => insertAscNat x (sortAscNat xs)

theorem mem_insertDesc {α : Type} (key : α → ℚ) (x : α) (l : List α) (z : α) :
    z ∈ insertDesc key x l ↔ z = x ∨ z ∈ l := by
  induction l with
  | nil => simp [insertDesc]
  | cons y ys ih =>
      by_cases h : key y < key x
      · simp only [insertDesc, if_pos h, List.mem_cons]
      · simp only [insertDesc, if_neg h, List.mem_cons, ih]
        tauto

theorem mem_sortDesc {α : Type} (key : α → ℚ) (l : List α) (z : α) :
    z ∈ sortDesc key l ↔ z ∈ l := by
  induction l with
  | nil => simp [sortDesc]
  | cons x xs ih => simp [sortDesc, mem_insertDesc, ih]

theorem perm_insertDesc {α : Type} (key : α → ℚ) (x : α) (l : List α) :
    (insertDesc key x l).Perm (x :: l) := by
  induction l with
  | nil => simp [insertDesc]
  | cons y ys ih =>
      by_cases h : key y < key x
      · simp [insertDesc, h]
      · simp only [insertDesc, if_neg h]
        exact (ih.cons y).trans (List.Perm.swap x y ys)

theorem perm_sortDesc {α : Type} (key : α → ℚ) (l : List α) :
    (sortDesc key l).Perm l := by
  induction l with
  | nil => simp [sortDesc]
  | cons x xs ih =>
      exact (perm_insertDesc key x (sortDesc key xs)).trans (ih.cons x)

theorem sorted_insertDesc {α : Type} (key : α → ℚ) (x : α) (l : List α)
    (h : List.Sorted (fun a b => key b ≤ key a) l) :
    List.Sorted (fun a b => key b ≤ key a) (insertDesc key x l) := by
  induction l with
  | nil => simp [insertDesc]
  | cons y ys ih =>
      by_cases hxy : key y < key x
      · simp only [insertDesc, if_pos hxy]
        refine List.sorted_cons.mpr ⟨?_, h⟩
        intro b hb
        rcases List.mem_cons.mp hb with hb | hb
        · subst hb; exact le_of_lt hxy
        · exact le_trans (List.rel_of_sorted_cons h b hb) (le_of_lt hxy)
      · simp only [insertDesc, if_neg hxy]
        refine List.sorted_cons.mpr ⟨?_, ih (List.sorted_cons.mp h).2⟩
        intro b hb
        rcases (mem_insertDesc key x ys b).mp hb with hb | hb
        · subst hb; exact le_of_not_lt hxy
        · exact List.rel_of_sorted_cons h b hb

theorem sorted_sortDesc {α : Type} (key : α → ℚ) (l : List α) :
    List.Sorted (fun a b => key b ≤ key a) (sortDesc key l) := by
  induction l with
  | nil => simp [sortDesc]
  | cons x xs ih => exact sorted_insertDesc key x (sortDesc key xs) ih

/-! ## Data model

Rows of the tables exchanged between training and serving
(`raw.raw_ratings`, `raw.item_neighbors`, `raw.movie_popularity`). -/

/-- One `(movieId, rating)` row of a user's rating history. -/
structure RatingRow where
  movieId : ℕ
  rating  : ℚ
deriving DecidableEq, Repr

/-- One row of the `item_neighbors` table. -/
structure NeighborRow where
  movieId         : ℕ
  neighborMovieId : ℕ
  similarity      : ℚ
deriving DecidableEq, Repr

/-- One row of the `movie_popularity` table, as read at serving time. -/
structure PopRow where
  movieId     : ℕ
  bayes_score : ℚ
deriving DecidableEq, Repr

/-- One recommended item of the output (`movieId` plus its score). -/
structure RecoItem where
  movieId : ℕ
  score   : ℚ
deriving DecidableEq, Repr

/-- The JSON-friendly result of `recommend_for_user`: a strategy tag and the
recommendation list (explanations are not modelled). -/
structure RecoResult where
  strategy        : String
  recommendations : List RecoItem
deriving DecidableEq, Repr

/-! ## Serving scorer: `recommend_for_user` (predict_model2.py) -/

/-- Epsilon guarding the division in the candidate score (`1e-12`). -/
def eps : ℚ := 1 / 1000000000000

/-- Configuration of `recommend_for_user` (its keyword parameters). -/
structure RecoConfig where
  n_reco             : ℕ := 10
  min_user_ratings   : ℕ := 5
  positive_threshold : ℚ := 4
deriving Repr

/-- Cold-start output: `SELECT movieId, bayes_score FROM movie_popularity
ORDER BY bayes_score DESC LIMIT n`. -/
def topPopularity (pop : List PopRow) (n : ℕ) : List RecoItem :=
  ((sortDesc PopRow.bayes_score pop).take n).map (fun p => ⟨p.movieId, p.bayes_score⟩)

/-- Seed selection: ratings at or above the positive threshold; the whole
history when that set is empty. -/
def seedOf (cfg : RecoConfig) (ur : List RatingRow) : List RatingRow :=
  let s := ur.filter (fun r => cfg.positive_threshold ≤ r.rating)
  if s.isEmpty then ur else s

/-- Movie ids already rated by the user. -/
def seenOf (ur : List RatingRow) : List ℕ := ur.map RatingRow.movieId

/-- The neighbor rows fetched for the user's seed movies
(`WHERE "movieId" IN %(movies)s`). -/
def seedNeighbors (cfg : RecoConfig) (ur : List RatingRow)
    (nb : List NeighborRow) : List NeighborRow :=
  nb.filter (fun e => decide (e.movieId ∈ (seedOf cfg ur).map RatingRow.movieId))

/-- The inner merge of the fetched neighbor rows with the user's ratings on
`srcMovieId`: each edge paired with the user's rating of its source movie. -/
def joinRatings (nb : List NeighborRow) (ur : List RatingRow) :
    List (NeighborRow × ℚ) :=
  nb.flatMap (fun e =>
    (ur.filter (fun r => r.movieId = e.movieId)).map (fun r => (e, r.rating)))

/-- All joined rows contributing to candidate `c` (one `groupby` group). -/
def groupRows (joined : List (NeighborRow × ℚ)) (c : ℕ) :
    List (NeighborRow × ℚ) :=
  joined.filter (fun p => p.1.neighborMovieId = c)

/-- The candidate score: `dot(similarity, srcRating) / (Σ|similarity| + 1e-12)`
over the group of candidate `c`. -/
def scoreOf (joined : List (NeighborRow × ℚ)) (c : ℕ) : ℚ :=
  ((groupRows joined c).map (fun p => p.1.similarity * p.2)).sum /
    (((groupRows joined c).map (fun p => |p.1.similarity|)).sum + eps)

/-- The joined table of `recommend_for_user`: seed-restricted neighbor rows
merged with the user's ratings. -/
def joinedOf (cfg : RecoConfig) (ur : List RatingRow) (nb : List NeighborRow) :
    List (NeighborRow × ℚ) :=
  joinRatings (seedNeighbors cfg ur nb) ur

/-- The scored candidates (`groupby("neighborMovieId").apply(...)`), with the
group keys in ascending order as pandas produces them. -/
def scoredOf (cfg : RecoConfig) (ur : List RatingRow) (nb : List NeighborRow) :
    List RecoItem :=
  (sortAscNat ((joinedOf cfg ur nb).map (fun p => p.1.neighborMovieId)).dedup).map
    (fun c => ⟨c, scoreOf (joinedOf cfg ur nb) c⟩)

/-- Scored candidates after removing movies already in the history
(`~scores["neighborMovieId"].isin(seen_movies)`). -/
def keptOf (cfg : RecoConfig) (ur : List RatingRow) (nb : List NeighborRow) :
    List RecoItem :=
  (scoredOf cfg ur nb).filter (fun s => decide (s.movieId ∉ seenOf ur))

/-- Shallow embedding of `recommend_for_user`: the user's rating history `ur`
(the rows the SQL query returns for this user), the `item_neighbors` table
`nb` and the `movie_popularity` table `pop` are explicit inputs. -/
def recommend_for_user (cfg : RecoConfig) (ur : List RatingRow)
    (nb : List NeighborRow) (pop : List PopRow) : RecoResult :=
  if ur.isEmpty ∨ ur.length < cfg.min_user_ratings then
    ⟨"popularity", topPopularity pop cfg.n_reco⟩
  else if (seedNeighbors cfg ur nb).isEmpty then
    ⟨"popularity_fallback", []⟩
  else
    ⟨"item_based_cf", (sortDesc RecoItem.score (keptOf cfg ur nb)).take cfg.n_reco⟩

/-! ## Claims C1–C4: `recommend_for_user` -/

/-- C1 (counterexample). On the cold-start popularity path the returned list
is the raw global top-N and is not filtered against the history: a user whose
single rated movie is the most popular one gets that same movie back. -/
theorem C1_counterexample :
    (1 : ℕ) ∈ ((recommend_for_user ⟨10, 5, 4⟩ [⟨1, 5⟩] [] [⟨1, 9/2⟩, ⟨2, 4⟩]).recommendations.map
        RecoItem.movieId) ∧
      (1 : ℕ) ∈ seenOf [⟨1, 5⟩] := by
  constructor
  · norm_num [recommend_for_user, topPopularity, sortDesc, insertDesc]
  · norm_num [seenOf]

/-- C1 (amended). On every return path other than the cold-start
`"popularity"` path, no item of the caller-supplied rating history appears in
the returned recommendation list (the `popularity_fallback` path returns an
empty list and the `item_based_cf` path filters the history out). -/
theorem C1_no_history_item_outside_cold_start (cfg : RecoConfig)
    (ur : List RatingRow) (nb : List NeighborRow) (pop : List PopRow)
    (it : RecoItem)
    (hstrat : (recommend_for_user cfg ur nb pop).strategy ≠ "popularity")
    (hmem : it ∈ (recommend_for_user cfg ur nb pop).recommendations) :
    it.movieId ∉ seenOf ur := by
  unfold recommend_for_user at hstrat hmem
  by_cases h1 : ur.isEmpty ∨ ur.length < cfg.min_user_ratings
  · rw [if_pos h1] at hstrat
    exact absurd rfl hstrat
  · rw [if_neg h1] at hmem
    by_cases h2 : (seedNeighbors cfg ur nb).isEmpty
    · rw [if_pos h2] at hmem
      simp at hmem
    · rw [if_neg h2] at hmem
      simp only at hmem
      have h3 : it ∈ sortDesc RecoItem.score (keptOf cfg ur nb) :=
        List.take_subset _ _ hmem
      have h4 : it ∈ keptOf cfg ur nb := (mem_sortDesc _ _ _).mp h3
      have h5 := List.mem_filter.mp h4
      simpa using h5.2

/-- C1 (witness). At a concrete item-based-CF input, the returned item is not
in the history. -/
theorem C1_witness : (RecoItem.mk 2 0).movieId ∉ seenOf [⟨1, 0⟩] := by
  refine C1_no_history_item_outside_cold_start ⟨10, 1, 4⟩ [⟨1, 0⟩] [⟨1, 2, 1⟩] [] ⟨2, 0⟩ ?_ ?_
  · norm_num [recommend_for_user, seedNeighbors, seedOf, seenOf]
    decide
  · norm_num [recommend_for_user, topPopularity, sortDesc, insertDesc,
      seedNeighbors, seedOf, seenOf, keptOf, scoredOf, joinedOf, joinRatings,
      sortAscNat, insertAscNat, scoreOf, groupRows, eps, List.dedup]

/-- C2 (counterexample). With a non-cold-start user whose seeds have no
neighbor edges, `recommend_for_user` returns strategy `"popularity_fallback"`
with an EMPTY recommendation list, even though the popularity table is
non-empty — the claimed non-empty popularity list is not returned. -/
theorem C2_counterexample :
    (recommend_for_user ⟨10, 5, 4⟩ [⟨1, 5⟩, ⟨2, 5⟩, ⟨3, 5⟩, ⟨4, 5⟩, ⟨5, 5⟩] []
        [⟨9, 4⟩]).strategy = "popularity_fallback" ∧
      (recommend_for_user ⟨10, 5, 4⟩ [⟨1, 5⟩, ⟨2, 5⟩, ⟨3, 5⟩, ⟨4, 5⟩, ⟨5, 5⟩] []
        [⟨9, 4⟩]).recommendations = [] ∧
      ([⟨9, 4⟩] : List PopRow) ≠ [] := by
  refine ⟨?_, ?_, by simp⟩ <;>
    norm_num [recommend_for_user, seedNeighbors, seedOf]

/-- C2 (amended). For a user who passes the cold-start check: if no seed has
any neighbor edges the result is strategy `"popularity_fallback"` with an
empty list (not the popularity list); and if the candidate set is empty after
excluding the history the result is strategy `"item_based_cf"` with an empty
list (no fallback occurs on that path). -/
theorem C2_fallback_behaviour (cfg : RecoConfig) (ur : List RatingRow)
    (nb : List NeighborRow) (pop : List PopRow)
    (hcold : ¬(ur.isEmpty ∨ ur.length < cfg.min_user_ratings)) :
    (seedNeighbors cfg ur nb = [] →
        recommend_for_user cfg ur nb pop = ⟨"popularity_fallback", []⟩) ∧
      (seedNeighbors cfg ur nb ≠ [] → keptOf cfg ur nb = [] →
        recommend_for_user cfg ur nb pop = ⟨"item_based_cf", []⟩) := by
  constructor
  · intro h2
    unfold recommend_for_user
    rw [if_neg hcold, if_pos (by simp [h2])]
  · intro h2 h3
    unfold recommend_for_user
    rw [if_neg hcold, if_neg (by simpa using h2)]
    simp [h3, sortDesc]

/-- C2 (witness). A concrete user whose five ratings have no neighbor
coverage gets the empty fallback result. -/
theorem C2_witness :
    recommend_for_user ⟨10, 5, 4⟩ [⟨1, 5⟩, ⟨2, 5⟩, ⟨3, 5⟩, ⟨4, 5⟩, ⟨5, 5⟩] []
      [⟨9, 4⟩] = ⟨"popularity_fallback", []⟩ :=
  (C2_fallback_behaviour ⟨10, 5, 4⟩ [⟨1, 5⟩, ⟨2, 5⟩, ⟨3, 5⟩, ⟨4, 5⟩, ⟨5, 5⟩] []
      [⟨9, 4⟩] (by norm_num)).1 (by norm_num [seedNeighbors])

/-- C3 (confirmed). A history shorter than `min_user_ratings` yields strategy
`"popularity"` and exactly the global top-`n_reco` rows of the popularity
table ordered by descending `bayes_score`: the output is the `n_reco`-prefix
of a descending-sorted permutation of the popularity table, and is itself
sorted by descending score. -/
theorem C3_cold_start_popularity (cfg : RecoConfig) (ur : List RatingRow)
    (nb : List NeighborRow) (pop : List PopRow)
    (h : ur.length < cfg.min_user_ratings) :
    (recommend_for_user cfg ur nb pop).strategy = "popularity" ∧
      (recommend_for_user cfg ur nb pop).recommendations =
        ((sortDesc PopRow.bayes_score pop).take cfg.n_reco).map
          (fun p => ⟨p.movieId, p.bayes_score⟩) ∧
      (sortDesc PopRow.bayes_score pop).Perm pop ∧
      List.Sorted (fun a b => b.score ≤ a.score)
        (recommend_for_user cfg ur nb pop).recommendations := by
  have hcond : ur.isEmpty ∨ ur.length < cfg.min_user_ratings := Or.inr h
  have hres : recommend_for_user cfg ur nb pop =
      ⟨"popularity", topPopularity pop cfg.n_reco⟩ := by
    unfold recommend_for_user
    rw [if_pos hcond]
  refine ⟨by rw [hres], by rw [hres]; rfl, perm_sortDesc _ _, ?_⟩
  rw [hres]
  show List.Sorted _ (topPopularity pop cfg.n_reco)
  unfold topPopularity
  rw [List.Sorted, List.pairwise_map]
  exact ((sorted_sortDesc PopRow.bayes_score pop).sublist
    (List.take_sublist _ _)).imp (fun h => h)

/-- C3 (witness). A concrete cold-start user receives the popularity
strategy. -/
theorem C3_witness :
    (recommend_for_user ⟨10, 5, 4⟩ [] [] [⟨1, 1⟩]).strategy = "popularity" :=
  (C3_cold_start_popularity ⟨10, 5, 4⟩ [] [] [⟨1, 1⟩] (by norm_num)).1

/-- C4 (counterexample). On the spec's fixture (history `[(1, 5.0)]`, edges
`1→2` with similarity `0.8` and `1→3` with similarity `0.5`), the candidate
scores are not exactly `5.0`: the `1e-12` term in the denominator makes them
strictly smaller. -/
theorem C4_counterexample :
    scoreOf (joinedOf ⟨10, 1, 4⟩ [⟨1, 5⟩] [⟨1, 2, 4/5⟩, ⟨1, 3, 1/2⟩]) 2 ≠ 5 ∧
      scoreOf (joinedOf ⟨10, 1, 4⟩ [⟨1, 5⟩] [⟨1, 2, 4/5⟩, ⟨1, 3, 1/2⟩]) 3 ≠ 5 := by
  have h45 : |(4/5 : ℚ)| = 4/5 := abs_of_nonneg (by norm_num)
  have h12 : |(1/2 : ℚ)| = 1/2 := abs_of_nonneg (by norm_num)
  constructor <;>
    norm_num [scoreOf, joinedOf, joinRatings, seedNeighbors, seedOf,
      groupRows, eps, h45, h12]

/-- C4 (amended). On that fixture the computed scores are exactly
`(0.8·5.0)/(0.8 + 1e-12)` and `(0.5·5.0)/(0.5 + 1e-12)`; each is strictly
below `5.0` but within `1e-11` of it, and the two scores are distinct (the
epsilon term breaks the claimed tie, candidate 2 scoring higher). -/
theorem C4_scores_with_epsilon :
    scoreOf (joinedOf ⟨10, 1, 4⟩ [⟨1, 5⟩] [⟨1, 2, 4/5⟩, ⟨1, 3, 1/2⟩]) 2 =
        (4/5 * 5) / (4/5 + 1/1000000000000) ∧
      scoreOf (joinedOf ⟨10, 1, 4⟩ [⟨1, 5⟩] [⟨1, 2, 4/5⟩, ⟨1, 3, 1/2⟩]) 3 =
        (1/2 * 5) / (1/2 + 1/1000000000000) ∧
      scoreOf (joinedOf ⟨10, 1, 4⟩ [⟨1, 5⟩] [⟨1, 2, 4/5⟩, ⟨1, 3, 1/2⟩]) 3 <
        scoreOf (joinedOf ⟨10, 1, 4⟩ [⟨1, 5⟩] [⟨1, 2, 4/5⟩, ⟨1, 3, 1/2⟩]) 2 ∧
      scoreOf (joinedOf ⟨10, 1, 4⟩ [⟨1, 5⟩] [⟨1, 2, 4/5⟩, ⟨1, 3, 1/2⟩]) 2 < 5 ∧
      5 - scoreOf (joinedOf ⟨10, 1, 4⟩ [⟨1, 5⟩] [⟨1, 2, 4/5⟩, ⟨1, 3, 1/2⟩]) 2 <
        1/100000000000 ∧
      5 - scoreOf (joinedOf ⟨10, 1, 4⟩ [⟨1, 5⟩] [⟨1, 2, 4/5⟩, ⟨1, 3, 1/2⟩]) 3 <
        1/100000000000 := by
  have h45 : |(4/5 : ℚ)| = 4/5 := abs_of_nonneg (by norm_num)
  have h12 : |(1/2 : ℚ)| = 1/2 := abs_of_nonneg (by norm_num)
  refine ⟨?_, ?_, ?_, ?_, ?_, ?_⟩ <;>
    norm_num [scoreOf, joinedOf, joinRatings, seedNeighbors, seedOf,
      groupRows, eps, h45, h12]

/-! ## MLflow pyfunc model (mlflow_model.py)

`ItemCFPyFunc` carries the same three config parameters as
`recommend_for_user`; its artifacts (`item_neighbors`, `movie_popularity`)
are modelled as explicit table arguments. The unmodelled `model_input is
None` guard collapses into the empty-input case. -/

/-- The popularity artifact sorted by descending `bayes_score` at load time
(`load_context`). -/
def loadPopularity (pop : List PopRow) : List PopRow :=
  sortDesc PopRow.bayes_score pop

/-- The neighbor-dictionary lookup `neighbors_dict.get(m, [])` built in
`load_context`: the `(neighborMovieId, similarity)` pairs of the rows with
source `m`, in table order. -/
def neighborsOf (nbTbl : List NeighborRow) (m : ℕ) : List (ℕ × ℚ) :=
  (nbTbl.filter (fun e => e.movieId = m)).map
    (fun e => (e.neighborMovieId, e.similarity))

/-- `scores[k] = scores.get(k, 0.0) + v` on an insertion-ordered
association list (a Python dict). -/
def addScore : List (ℕ × ℚ) → ℕ → ℚ → List (ℕ × ℚ)
  | [], k, v => [(k, v)]
  | (k', v') :: rest, k, v =>
      if k' = k then (k', v' + v) :: rest else (k', v') :: addScore rest k v

/-- The double loop of `ItemCFPyFunc.predict` (and of the training-time
evaluator): for each seed movie, add the similarity of each of its neighbors
not in `seen` to that neighbor's accumulated score. -/
def cfScores (nbTbl : List NeighborRow) (seedMovies seen : List ℕ) :
    List (ℕ × ℚ) :=
  seedMovies.foldl (fun acc m =>
    (neighborsOf nbTbl m).foldl (fun acc2 p =>
      if p.1 ∈ seen then acc2 else addScore acc2 p.1 p.2) acc) []

/-- `self.popularity.head(n_reco)[["movieId", "bayes_score"]]` renamed to
`(movieId, score)`. -/
def predictTop (pop : List PopRow) (n : ℕ) : List RecoItem :=
  ((loadPopularity pop).take n).map (fun p => ⟨p.movieId, p.bayes_score⟩)

/-- Shallow embedding of `ItemCFPyFunc.predict`. Its seed selection is the
same computation as in `recommend_for_user`, so `seedOf`/`seenOf` are
reused. -/
def ItemCFPyFunc.predict (cfg : RecoConfig) (nbTbl : List NeighborRow)
    (pop : List PopRow) (model_input : List RatingRow) : List RecoItem :=
  if model_input.isEmpty ∨ model_input.length < cfg.min_user_ratings then
    predictTop pop cfg.n_reco
  else if ((seedOf cfg model_input).map RatingRow.movieId).isEmpty then
    predictTop pop cfg.n_reco
  else if (cfScores nbTbl ((seedOf cfg model_input).map RatingRow.movieId)
      (seenOf model_input)).isEmpty then
    predictTop pop cfg.n_reco
  else
    ((sortDesc Prod.snd (cfScores nbTbl
          ((seedOf cfg model_input).map RatingRow.movieId)
          (seenOf model_input))).take cfg.n_reco).map
      (fun p => ⟨p.1, p.2⟩)

/-- C10 (confirmed). `ItemCFPyFunc.predict` returns at most `n_reco` rows on
every branch: the three popularity branches and the item-based-CF ranking
branch all truncate to `n_reco`. -/
theorem C10_predict_row_bound (cfg : RecoConfig) (nbTbl : List NeighborRow)
    (pop : List PopRow) (model_input : List RatingRow) :
    (ItemCFPyFunc.predict cfg nbTbl pop model_input).length ≤ cfg.n_reco := by
  have htop : ∀ (p : List PopRow) (n : ℕ), (predictTop p n).length ≤ n := by
    intro p n
    simp only [predictTop, List.length_map, List.length_take]
    exact min_le_left _ _
  unfold ItemCFPyFunc.predict
  split_ifs
  · exact htop pop cfg.n_reco
  · exact htop pop cfg.n_reco
  · exact htop pop cfg.n_reco
  · simp only [List.length_map, List.length_take]
    exact min_le_left _ _

/-! ## Popularity estimator (train_model2.py, `compute_bayesian_popularity`)

`ratings.groupby("movieId")["rating"].agg(["count", "mean"])` is modelled by
per-movie filters over the rating rows; the group keys are the distinct
movie ids of the input. -/

/-- One `(userId, movieId, rating)` row of the training ratings. -/
structure FullRating where
  userId  : ℕ
  movieId : ℕ
  rating  : ℚ
deriving DecidableEq, Repr

/-- The distinct movie ids of the rating set (the groupby keys). -/
def movieIdsOf (ratings : List FullRating) : List ℕ :=
  (ratings.map FullRating.movieId).dedup

/-- The ratings given to movie `m`. -/
def ratingsFor (ratings : List FullRating) (m : ℕ) : List ℚ :=
  (ratings.filter (fun r => r.movieId = m)).map FullRating.rating

/-- Per-movie mean rating (`agg("mean")`). -/
def meanOf (ratings : List FullRating) (m : ℕ) : ℚ :=
  (ratingsFor ratings m).sum / (ratingsFor ratings m).length

/-- `C = stats["count"].mean()`: mean rating count across movies. -/
def priorC (ratings : List FullRating) : ℚ :=
  ((movieIdsOf ratings).map
      (fun m => ((ratingsFor ratings m).length : ℚ))).sum /
    (movieIdsOf ratings).length

/-- `M = stats["mean"].mean()`: mean of per-movie mean ratings. -/
def priorM (ratings : List FullRating) : ℚ :=
  ((movieIdsOf ratings).map (fun m => meanOf ratings m)).sum /
    (movieIdsOf ratings).length

/-- One output row of `compute_bayesian_popularity`. -/
structure PopStat where
  movieId     : ℕ
  n_ratings   : ℕ
  mean_rating : ℚ
  bayes_score : ℚ
deriving DecidableEq, Repr

/-- Shallow embedding of `compute_bayesian_popularity`:
`bayes_score = (C·M + count·mean) / (C + count)` per movie. -/
def compute_bayesian_popularity (ratings : List FullRating) : List PopStat :=
  (movieIdsOf ratings).map (fun m =>
    ⟨m, (ratingsFor ratings m).length, meanOf ratings m,
      (priorC ratings * priorM ratings +
          ((ratingsFor ratings m).length : ℚ) * meanOf ratings m) /
        (priorC ratings + ((ratingsFor ratings m).length : ℚ))⟩)

theorem length_le_sum_of_one_le (l : List ℚ) (h : ∀ x ∈ l, (1 : ℚ) ≤ x) :
    (l.length : ℚ) ≤ l.sum := by
  induction l with
  | nil => simp
  | cons x xs ih =>
      simp only [List.length_cons, List.sum_cons, Nat.cast_succ]
      have h1 : (1 : ℚ) ≤ x := h x (by simp)
      have h2 : (xs.length : ℚ) ≤ xs.sum := ih (fun y hy => h y (by simp [hy]))
      linarith

theorem ratingsFor_length_pos (ratings : List FullRating) (m : ℕ)
    (hm : m ∈ movieIdsOf ratings) : 0 < (ratingsFor ratings m).length := by
  rw [movieIdsOf, List.mem_dedup, List.mem_map] at hm
  obtain ⟨r, hr, hrm⟩ := hm
  have : r ∈ ratings.filter (fun r => r.movieId = m) :=
    List.mem_filter.mpr ⟨hr, by simp [hrm]⟩
  simp only [ratingsFor, List.length_map]
  exact List.length_pos.mpr (List.ne_nil_of_mem this)

theorem priorC_pos (ratings : List FullRating) (m : ℕ)
    (hm : m ∈ movieIdsOf ratings) : 0 < priorC ratings := by
  have hk : 0 < (movieIdsOf ratings).length :=
    List.length_pos.mpr (List.ne_nil_of_mem hm)
  have hsum : ((movieIdsOf ratings).length : ℚ) ≤
      ((movieIdsOf ratings).map
        (fun m => ((ratingsFor ratings m).length : ℚ))).sum := by
    have := length_le_sum_of_one_le
      ((movieIdsOf ratings).map (fun m => ((ratingsFor ratings m).length : ℚ)))
      (by
        intro x hx
        rw [List.mem_map] at hx
        obtain ⟨m', hm', rfl⟩ := hx
        exact_mod_cast ratingsFor_length_pos ratings m' hm')
    simpa using this
  have hnum : 0 < ((movieIdsOf ratings).map
      (fun m => ((ratingsFor ratings m).length : ℚ))).sum :=
    lt_of_lt_of_le (by exact_mod_cast hk) hsum
  exact div_pos hnum (by exact_mod_cast hk)

theorem weighted_avg_between (a b x y : ℚ) (ha : 0 < a) (hb : 0 < b) :
    min x y ≤ (a * y + b * x) / (a + b) ∧
      (a * y + b * x) / (a + b) ≤ max x y := by
  have hab : 0 < a + b := by linarith
  constructor
  · rw [le_div_iff₀ hab]
    have h1 : min x y ≤ y := min_le_right x y
    have h2 : min x y ≤ x := min_le_left x y
    nlinarith
  · rw [div_le_iff₀ hab]
    have h1 : y ≤ max x y := le_max_right x y
    have h2 : x ≤ max x y := le_max_left x y
    nlinarith

/-- C5 (confirmed). Every row of `compute_bayesian_popularity` (each has
`n_ratings ≥ 1`) has its `bayes_score` between the movie's mean rating and
the global prior `M`, inclusive, under exact arithmetic. -/
theorem C5_bayes_score_between (ratings : List FullRating) (s : PopStat)
    (hs : s ∈ compute_bayesian_popularity ratings) :
    min s.mean_rating (priorM ratings) ≤ s.bayes_score ∧
      s.bayes_score ≤ max s.mean_rating (priorM ratings) := by
  simp only [compute_bayesian_popularity, List.mem_map] at hs
  obtain ⟨m, hm, rfl⟩ := hs
  exact weighted_avg_between (priorC ratings)
    (((ratingsFor ratings m).length : ℚ)) (meanOf ratings m) (priorM ratings)
    (priorC_pos ratings m hm)
    (by exact_mod_cast ratingsFor_length_pos ratings m hm)

/-- C5 (witness). A concrete single-rating input: the unique output row has
its Bayes score between its mean rating and the prior. -/
theorem C5_witness :
    min (PopStat.mk 10 1 4 4).mean_rating (priorM [⟨1, 10, 4⟩]) ≤
        (PopStat.mk 10 1 4 4).bayes_score ∧
      (PopStat.mk 10 1 4 4).bayes_score ≤
        max (PopStat.mk 10 1 4 4).mean_rating (priorM [⟨1, 10, 4⟩]) :=
  C5_bayes_score_between [⟨1, 10, 4⟩] ⟨10, 1, 4, 4⟩
    (by norm_num [compute_bayesian_popularity, movieIdsOf, ratingsFor,
      meanOf, priorC, priorM, List.dedup])

/-! ## Evaluator split (train_model2.py, line 155)

`train, test = train_test_split(ratings, test_size=0.2, random_state=42)`
shuffles the rows with a seeded RNG and cuts positionally. The realized
permutation of the RNG stream is outside the embedding, so the shuffle is an
explicit argument `shuffled` ranging over permutations of the input; the
split itself is the positional cut the library performs: `⌈0.2·n⌉` test rows
from the front of the shuffled order, the rest train. The code loads only
`["userId", "movieId", "rating"]` — timestamps never reach the split. -/

/-- A rating row as produced upstream, with its timestamp. -/
structure TsRating where
  userId    : ℕ
  movieId   : ℕ
  rating    : ℚ
  timestamp : ℕ
deriving DecidableEq, Repr

/-- Number of test rows drawn by `test_size=0.2`: `⌈n/5⌉`. -/
def nTest (n : ℕ) : ℕ := (n + 4) / 5

/-- Test side of the split: the `nTest`-prefix of the shuffled rows. -/
def splitTest (shuffled : List TsRating) : List TsRating :=
  shuffled.take (nTest shuffled.length)

/-- Train side of the split: the remaining shuffled rows. -/
def splitTrain (shuffled : List TsRating) : List TsRating :=
  shuffled.drop (nTest shuffled.length)

/-- Modelled from the spec: the claimed split discipline — for each user,
every training-side rating is no later than every test-side rating (earliest
80 % train, most recent 20 % test). -/
def PerUserChronological (shuffled : List TsRating) : Prop :=
  ∀ u : ℕ, ∀ a ∈ splitTrain shuffled, ∀ b ∈ splitTest shuffled,
    a.userId = u → b.userId = u → a.timestamp ≤ b.timestamp

/-- C7 (counterexample). A shuffle outcome (here the identity permutation,
one of the orders a seeded global shuffle can produce) on which a user's
earliest rating lands on the test side and a later one on the train side:
the split is not per-user chronological. -/
theorem C7_counterexample :
    ([⟨1, 100, 3, 10⟩, ⟨1, 101, 3, 20⟩, ⟨1, 102, 3, 30⟩, ⟨1, 103, 3, 40⟩,
        ⟨1, 104, 3, 50⟩] : List TsRating).Perm
      [⟨1, 100, 3, 10⟩, ⟨1, 101, 3, 20⟩, ⟨1, 102, 3, 30⟩, ⟨1, 103, 3, 40⟩,
        ⟨1, 104, 3, 50⟩] ∧
    ¬ PerUserChronological
      [⟨1, 100, 3, 10⟩, ⟨1, 101, 3, 20⟩, ⟨1, 102, 3, 30⟩, ⟨1, 103, 3, 40⟩,
        ⟨1, 104, 3, 50⟩] := by
  refine ⟨List.Perm.refl _, fun h => ?_⟩
  have := h 1 ⟨1, 101, 3, 20⟩ (by norm_num [splitTrain, nTest])
    ⟨1, 100, 3, 10⟩ (by norm_num [splitTest, nTest]) rfl rfl
  norm_num at this

/-- C7 (amended). The evaluator's split is a global positional 80/20 cut of
the seeded shuffle: test is the `⌈n/5⌉`-prefix and train the remainder
(their concatenation restores the shuffled order), and the assignment is
completely independent of timestamps — reassigning every row's timestamp
commutes with the split. -/
theorem C7_split_is_global_positional (shuffled : List TsRating)
    (f : TsRating → ℕ) :
    (splitTest shuffled).length = nTest shuffled.length ∧
      (splitTrain shuffled).length = shuffled.length - nTest shuffled.length ∧
      splitTest shuffled ++ splitTrain shuffled = shuffled ∧
      splitTest (shuffled.map (fun r => { r with timestamp := f r })) =
        (splitTest shuffled).map (fun r => { r with timestamp := f r }) ∧
      splitTrain (shuffled.map (fun r => { r with timestamp := f r })) =
        (splitTrain shuffled).map (fun r => { r with timestamp := f r }) := by
  have hle : nTest shuffled.length ≤ shuffled.length := by
    unfold nTest
    omega
  refine ⟨?_, ?_, ?_, ?_, ?_⟩
  · simp only [splitTest, List.length_take]
    omega
  · simp [splitTrain]
  · exact List.take_append_drop _ _
  · simp [splitTest, List.map_take]
  · simp [splitTrain, List.map_drop]

/-! ## Evaluator scoring vs serving scoring (C8)

The evaluator (train_model2.py lines 262-279) ranks candidates with the same
double loop as `ItemCFPyFunc.predict`, seeded by the training-side history
set with the history itself as the exclusion set; its per-candidate value is
a plain sum of similarities. The serving scorer of predict_model2.py is the
rating-weighted normalized `scoreOf`. -/

/-- Total score accumulated for key `c` in an association list of scores. -/
def scoreVal (l : List (ℕ × ℚ)) (c : ℕ) : ℚ :=
  ((l.filter (fun p => p.1 = c)).map Prod.snd).sum

/-- The evaluator's candidate scores for one sampled user: seeds and
exclusion set are both the training-side history. -/
def evalScores (nbTbl : List NeighborRow) (hist : List ℕ) : List (ℕ × ℚ) :=
  cfScores nbTbl hist hist

/-- The serving scorer's candidate score computed from a rated history: the
neighbor rows of the history's movies joined back to the ratings, then
`scoreOf` (rating-weighted, normalized, with epsilon). -/
def servingScoreOnHistory (histR : List RatingRow) (nbTbl : List NeighborRow)
    (c : ℕ) : ℚ :=
  scoreOf (joinRatings
    (nbTbl.filter (fun e => decide (e.movieId ∈ seenOf histR))) histR) c

theorem scoreVal_addScore (acc : List (ℕ × ℚ)) (k : ℕ) (v : ℚ) (c : ℕ) :
    scoreVal (addScore acc k v) c =
      scoreVal acc c + if k = c then v else 0 := by
  induction acc with
  | nil =>
      by_cases hk : k = c <;> simp [addScore, scoreVal, hk]
  | cons p rest ih =>
      obtain ⟨k', v'⟩ := p
      by_cases h1 : k' = k
      · subst h1
        by_cases hk : k' = c
        · simp [addScore, scoreVal, hk]
          ring
        · simp [addScore, scoreVal, hk]
      · by_cases hk : k' = c
        · subst hk
          simp only [addScore, if_neg h1, scoreVal, List.filter_cons]
          have hkc : ¬ k = k' := fun hh => h1 hh.symm
          simp only [scoreVal] at ih
          simp [ih, if_neg hkc]
        · simp only [addScore, if_neg h1, scoreVal, List.filter_cons]
          simp only [scoreVal] at ih
          simp [ih, hk]

theorem scoreVal_fold_pairs (seen : List ℕ) (l : List (ℕ × ℚ))
    (acc : List (ℕ × ℚ)) (c : ℕ) :
    scoreVal (l.foldl (fun acc2 p =>
        if p.1 ∈ seen then acc2 else addScore acc2 p.1 p.2) acc) c =
      scoreVal acc c +
        ((l.filter (fun p => decide (p.1 = c) && !decide (p.1 ∈ seen))).map
          Prod.snd).sum := by
  induction l generalizing acc with
  | nil => simp
  | cons p rest ih =>
      obtain ⟨k, v⟩ := p
      by_cases hseen : k ∈ seen
      · simp [List.foldl_cons, hseen, ih]
      · by_cases hk : k = c
        · subst hk
          simp [List.foldl_cons, hseen, ih, scoreVal_addScore]
          ring
        · simp [List.foldl_cons, hseen, ih, scoreVal_addScore, hk]

theorem scoreVal_fold_hist (nbTbl : List NeighborRow) (seen hist : List ℕ)
    (acc : List (ℕ × ℚ)) (c : ℕ) :
    scoreVal (hist.foldl (fun acc m =>
        (neighborsOf nbTbl m).foldl (fun acc2 p =>
          if p.1 ∈ seen then acc2 else addScore acc2 p.1 p.2) acc) acc) c =
      scoreVal acc c +
        (hist.map (fun m =>
          (((neighborsOf nbTbl m).filter (fun p =>
            decide (p.1 = c) && !decide (p.1 ∈ seen))).map Prod.snd).sum)).sum := by
  induction hist generalizing acc with
  | nil => simp
  | cons m rest ih =>
      simp only [List.foldl_cons, List.map_cons, List.sum_cons, ih,
        scoreVal_fold_pairs]
      ring

/-- C8 (counterexample). For the history `[(1, 5.0)]` and the single edge
`1→2` with similarity `0.5`, the evaluator scores candidate 2 as `0.5` while
the serving scorer's rating-weighted normalized score is
`(0.5·5)/(0.5 + 1e-12)`: the two computations disagree. -/
theorem C8_counterexample :
    scoreVal (evalScores [⟨1, 2, 1/2⟩] (seenOf [⟨1, 5⟩])) 2 ≠
      servingScoreOnHistory [⟨1, 5⟩] [⟨1, 2, 1/2⟩] 2 := by
  have h12 : |(1/2 : ℚ)| = 1/2 := abs_of_nonneg (by norm_num)
  norm_num [evalScores, cfScores, neighborsOf, addScore, scoreVal, seenOf,
    servingScoreOnHistory, scoreOf, joinRatings, groupRows, eps, h12]

/-- C8 (amended). The evaluator's per-candidate score is the plain sum of
similarities of the edges from history seeds to the candidate — no rating
weighting, no normalization, no epsilon — and is `0` for candidates already
in the history; it is not the serving scorer's formula. -/
theorem C8_eval_score_characterization (nbTbl : List NeighborRow)
    (hist : List ℕ) (c : ℕ) :
    scoreVal (evalScores nbTbl hist) c =
      if c ∈ hist then 0
      else (hist.map (fun m =>
        (((neighborsOf nbTbl m).filter (fun p => decide (p.1 = c))).map
          Prod.snd).sum)).sum := by
  unfold evalScores cfScores
  rw [scoreVal_fold_hist]
  by_cases hc : c ∈ hist
  · rw [if_pos hc]
    have hz : ∀ m, (((neighborsOf nbTbl m).filter (fun p =>
        decide (p.1 = c) && !decide (p.1 ∈ hist))).map Prod.snd).sum = 0 := by
      intro m
      have : (neighborsOf nbTbl m).filter (fun p =>
          decide (p.1 = c) && !decide (p.1 ∈ hist)) = [] := by
        apply List.filter_eq_nil_iff.mpr
        intro p _
        by_cases hp : p.1 = c
        · simp [hp, hc]
        · simp [hp]
      rw [this]
      simp
    simp only [scoreVal, List.filter_nil, List.map_nil, List.sum_nil, hz]
    simp [List.map_const']
  · rw [if_neg hc]
    have hcong : ∀ m, (neighborsOf nbTbl m).filter (fun p =>
        decide (p.1 = c) && !decide (p.1 ∈ hist)) =
        (neighborsOf nbTbl m).filter (fun p => decide (p.1 = c)) := by
      intro m
      apply List.filter_congr
      intro p _
      by_cases hp : p.1 = c
      · simp [hp, hc]
      · simp [hp]
    simp only [scoreVal, List.filter_nil, List.map_nil, List.sum_nil, hcong,
      zero_add]

/-! ## Ranking metrics (train_model2.py, lines 84-99)

`recall_at_10` and `precision_at_10` are exact over `ℚ`. The DCG weight
`1.0 / np.log2(i + 2)` is transcendental, so the DCG family is embedded over
an ordered-field parameter with the weight as an explicit function; theorems
instantiate it at `ℝ` with `fun i => 1 / Real.logb 2 (i + 2)`. -/

/-- `len(set(recos[:10]) & truth_set) / len(truth_set)`, `0.0` on an empty
truth set. -/
def recall_at_10 (recos : List ℕ) (truth : Finset ℕ) : ℚ :=
  if truth = ∅ then 0
  else (((recos.take 10).toFinset ∩ truth).card : ℚ) / truth.card

/-- `len(set(recos[:10]) & truth_set) / 10`, `0.0` on an empty
recommendation list. -/
def precision_at_10 (recos : List ℕ) (truth : Finset ℕ) : ℚ :=
  if recos = [] then 0
  else (((recos.take 10).toFinset ∩ truth).card : ℚ) / 10

/-- The DCG accumulation loop `for i, m in enumerate(recos[:10])`, starting
at position `i`: each hit at position `j` contributes `w j`. -/
def dcgFrom {K : Type} [LinearOrderedField K] (w : ℕ → K) (truth : Finset ℕ) :
    ℕ → List ℕ → K
  | _, [] => 0
  | i, m :: rest => (if m ∈ truth then w i else 0) + dcgFrom w truth (i+1) rest

/-- `dcg` of the first ten recommendations. -/
def dcg_at_10 {K : Type} [LinearOrderedField K] (w : ℕ → K) (recos : List ℕ)
    (truth : Finset ℕ) : K :=
  dcgFrom w truth 0 (recos.take 10)

/-- `idcg = sum(w(i) for i in range(min(len(truth_set), 10)))`. -/
def idcg_at_10 {K : Type} [LinearOrderedField K] (w : ℕ → K)
    (truth : Finset ℕ) : K :=
  ∑ i ∈ Finset.range (min truth.card 10), w i

/-- `ndcg_at_10`: `0.0` on an empty truth set, else `dcg / idcg` when
`idcg > 0`, else `0.0`. -/
def ndcg_at_10 {K : Type} [LinearOrderedField K] (w : ℕ → K) (recos : List ℕ)
    (truth : Finset ℕ) : K :=
  if truth = ∅ then 0
  else if 0 < idcg_at_10 w truth then
    dcg_at_10 w recos truth / idcg_at_10 w truth
  else 0

theorem dcgFrom_nonneg {K : Type} [LinearOrderedField K] (w : ℕ → K)
    (hw : ∀ j, 0 ≤ w j) (truth : Finset ℕ) :
    ∀ (l : List ℕ) (i : ℕ), 0 ≤ dcgFrom w truth i l := by
  intro l
  induction l with
  | nil => intro i; simp [dcgFrom]
  | cons m rest ih =>
      intro i
      simp only [dcgFrom]
      have h1 : (0 : K) ≤ if m ∈ truth then w i else 0 := by
        split_ifs
        · exact hw i
        · exact le_refl 0
      have h2 := ih (i + 1)
      linarith

theorem dcgFrom_erase {K : Type} [LinearOrderedField K] (w : ℕ → K)
    (truth : Finset ℕ) (m : ℕ) :
    ∀ (l : List ℕ) (i : ℕ), m ∉ l →
      dcgFrom w truth i l = dcgFrom w (truth.erase m) i l := by
  intro l
  induction l with
  | nil => intro i _; simp [dcgFrom]
  | cons x rest ih =>
      intro i hm
      have hxm : x ≠ m := fun h => hm (by simp [h])
      have hrest : m ∉ rest := fun h => hm (by simp [h])
      have hmem : (x ∈ truth.erase m) ↔ (x ∈ truth) := by
        simp [Finset.mem_erase, hxm]
      simp only [dcgFrom, ih (i + 1) hrest]
      congr 1
      by_cases hx : x ∈ truth
      · rw [if_pos hx, if_pos (hmem.mpr hx)]
      · rw [if_neg hx, if_neg (fun hh => hx (hmem.mp hh))]

theorem dcgFrom_le_ideal {K : Type} [LinearOrderedField K] (w : ℕ → K)
    (hw0 : ∀ j, 0 ≤ w j) (hanti : ∀ j k, j ≤ k → w k ≤ w j) :
    ∀ (l : List ℕ) (truth : Finset ℕ) (i : ℕ), l.Nodup →
      dcgFrom w truth i l ≤
        ∑ j ∈ Finset.range (min truth.card l.length), w (i + j) := by
  intro l
  induction l with
  | nil =>
      intro truth i _
      simp [dcgFrom]
  | cons m rest ih =>
      intro truth i hnd
      rw [List.nodup_cons] at hnd
      obtain ⟨hmr, hndr⟩ := hnd
      by_cases hm : m ∈ truth
      · have h1 : dcgFrom w truth (i + 1) rest =
            dcgFrom w (truth.erase m) (i + 1) rest :=
          dcgFrom_erase w truth m rest (i + 1) hmr
        have h2 := ih (truth.erase m) (i + 1) hndr
        rw [Finset.card_erase_of_mem hm] at h2
        have hcard : 1 ≤ truth.card := Finset.card_pos.mpr ⟨m, hm⟩
        have hmin : min truth.card (m :: rest).length =
            min (truth.card - 1) rest.length + 1 := by
          simp only [List.length_cons]
          omega
        simp only [dcgFrom, if_pos hm, hmin, Finset.sum_range_succ']
        have hsum : ∑ j ∈ Finset.range (min (truth.card - 1) rest.length),
              w (i + (j + 1)) =
            ∑ j ∈ Finset.range (min (truth.card - 1) rest.length),
              w ((i + 1) + j) :=
          Finset.sum_congr rfl (fun j _ => by
            congr 1
            omega)
        rw [hsum, h1]
        have hw00 : w (i + 0) = w i := by rw [Nat.add_zero]
        linarith [hw00]
      · simp only [dcgFrom, if_neg hm, zero_add]
        have h2 := ih truth (i + 1) hndr
        have h3 : ∑ j ∈ Finset.range (truth.card ⊓ rest.length), w (i + 1 + j) ≤
            ∑ j ∈ Finset.range (truth.card ⊓ rest.length), w (i + j) :=
          Finset.sum_le_sum (fun j _ => hanti (i + j) (i + 1 + j) (by omega))
        have h4 : ∑ j ∈ Finset.range (truth.card ⊓ rest.length), w (i + j) ≤
            ∑ j ∈ Finset.range (truth.card ⊓ (m :: rest).length), w (i + j) := by
          refine Finset.sum_le_sum_of_subset_of_nonneg ?_ (fun j _ _ => hw0 _)
          apply Finset.range_subset.mpr
          simp only [List.length_cons]
          omega
        exact le_trans h2 (le_trans h3 h4)

/-- C9 (counterexample). On a recommendation list with a repeated hit,
`ndcg_at_10` exceeds `1`: with `recos = [7, 7]` and the truth set `{7}`,
`DCG = 1/log2(2) + 1/log2(3)` while `IDCG = 1/log2(2) = 1`. -/
theorem C9_counterexample :
    1 < ndcg_at_10 (fun i => 1 / Real.logb 2 ((i : ℝ) + 2)) [7, 7]
      ({7} : Finset ℕ) := by
  have hlog2 : Real.logb 2 2 = 1 := Real.logb_self_eq_one one_lt_two
  have hlog3 : 0 < Real.logb 2 3 := Real.logb_pos one_lt_two (by norm_num)
  have hidcg : idcg_at_10 (fun i => 1 / Real.logb 2 ((i : ℝ) + 2))
      ({7} : Finset ℕ) = 1 := by
    rw [idcg_at_10]
    norm_num [hlog2]
  have htake : (([7, 7] : List ℕ).take 10) = [7, 7] := rfl
  have hdcg : dcg_at_10 (fun i => 1 / Real.logb 2 ((i : ℝ) + 2)) [7, 7]
      ({7} : Finset ℕ) = 1 + 1 / Real.logb 2 3 := by
    rw [dcg_at_10, htake]
    simp only [dcgFrom]
    norm_num [hlog2]
  rw [ndcg_at_10, if_neg (by decide), if_pos (by rw [hidcg]; norm_num),
    hdcg, hidcg]
  have hpos : 0 < 1 / Real.logb 2 3 := by positivity
  linarith

/-- C9 (amended). For every recommendation list and truth set:
`recall@10 ≤ 1`, `precision@10 ≤ 1`, and `ndcg@10 ≥ 0` with the code's
weight `1/log2(i+2)`; and for duplicate-free recommendation lists (as the
evaluator produces: candidates are dict keys) additionally `DCG@10 ≤
IDCG@10` and `ndcg@10 ≤ 1`. A list with duplicate hits can push `ndcg@10`
above `1`. -/
theorem C9_metric_ranges (recos : List ℕ) (truth : Finset ℕ) :
    recall_at_10 recos truth ≤ 1 ∧
      precision_at_10 recos truth ≤ 1 ∧
      0 ≤ ndcg_at_10 (fun i => 1 / Real.logb 2 ((i : ℝ) + 2)) recos truth ∧
      (recos.Nodup →
        dcg_at_10 (fun i => 1 / Real.logb 2 ((i : ℝ) + 2)) recos truth ≤
            idcg_at_10 (fun i => 1 / Real.logb 2 ((i : ℝ) + 2)) truth ∧
          ndcg_at_10 (fun i => 1 / Real.logb 2 ((i : ℝ) + 2)) recos truth ≤ 1) := by
  have hwpos : ∀ j : ℕ, 0 < (fun i => 1 / Real.logb 2 ((i : ℝ) + 2)) j := by
    intro j
    have hj : (0 : ℝ) ≤ (j : ℝ) := Nat.cast_nonneg j
    have h1 : (1 : ℝ) < (j : ℝ) + 2 := by linarith
    have := Real.logb_pos one_lt_two h1
    positivity
  have hw0 : ∀ j : ℕ, 0 ≤ (fun i => 1 / Real.logb 2 ((i : ℝ) + 2)) j :=
    fun j => le_of_lt (hwpos j)
  have hanti : ∀ j k : ℕ, j ≤ k →
      (fun i => 1 / Real.logb 2 ((i : ℝ) + 2)) k ≤
        (fun i => 1 / Real.logb 2 ((i : ℝ) + 2)) j := by
    intro j k hjk
    have hj : (0 : ℝ) ≤ (j : ℝ) := Nat.cast_nonneg j
    have hk : (0 : ℝ) ≤ (k : ℝ) := Nat.cast_nonneg k
    have hjpos : (0 : ℝ) < (j : ℝ) + 2 := by linarith
    have hkpos : (0 : ℝ) < (k : ℝ) + 2 := by linarith
    have hlogj : 0 < Real.logb 2 ((j : ℝ) + 2) :=
      Real.logb_pos one_lt_two (by linarith)
    have hle : Real.logb 2 ((j : ℝ) + 2) ≤ Real.logb 2 ((k : ℝ) + 2) :=
      (Real.logb_le_logb one_lt_two hjpos hkpos).mpr
        (by
          have : (j : ℝ) ≤ (k : ℝ) := Nat.cast_le.mpr hjk
          linarith)
    exact one_div_le_one_div_of_le hlogj hle
  have hdle : recos.Nodup →
      dcg_at_10 (fun i => 1 / Real.logb 2 ((i : ℝ) + 2)) recos truth ≤
        idcg_at_10 (fun i => 1 / Real.logb 2 ((i : ℝ) + 2)) truth := by
    intro hnd
    have hnd10 : (recos.take 10).Nodup :=
      (List.take_sublist 10 recos).nodup hnd
    have h := dcgFrom_le_ideal (fun i => 1 / Real.logb 2 ((i : ℝ) + 2))
      hw0 hanti (recos.take 10) truth 0 hnd10
    simp only [Nat.zero_add] at h
    refine le_trans h ?_
    rw [idcg_at_10]
    refine Finset.sum_le_sum_of_subset_of_nonneg ?_ (fun j _ _ => hw0 j)
    apply Finset.range_subset.mpr
    have h10 : (recos.take 10).length ≤ 10 := by
      simp [List.length_take]
    omega
  have hdnn : 0 ≤ dcg_at_10 (fun i => 1 / Real.logb 2 ((i : ℝ) + 2))
      recos truth :=
    dcgFrom_nonneg _ hw0 truth (recos.take 10) 0
  refine ⟨?_, ?_, ?_, ?_⟩
  · by_cases ht : truth = ∅
    · simp [recall_at_10, ht]
    · rw [recall_at_10, if_neg ht]
      have hpos : 0 < truth.card :=
        Finset.card_pos.mpr (Finset.nonempty_iff_ne_empty.mpr ht)
      rw [div_le_one (by exact_mod_cast hpos)]
      exact_mod_cast Finset.card_le_card Finset.inter_subset_right
  · by_cases hr : recos = []
    · simp [precision_at_10, hr]
    · rw [precision_at_10, if_neg hr, div_le_one (by norm_num)]
      have h1 : ((recos.take 10).toFinset ∩ truth).card ≤
          (recos.take 10).toFinset.card :=
        Finset.card_le_card Finset.inter_subset_left
      have h2 : (recos.take 10).toFinset.card ≤ (recos.take 10).length :=
        (recos.take 10).toFinset_card_le
      have h3 : (recos.take 10).length ≤ 10 := by
        simp [List.length_take]
      exact_mod_cast le_trans h1 (le_trans h2 h3)
  · rw [ndcg_at_10]
    split_ifs with h1 h2
    · norm_num
    · exact div_nonneg hdnn (le_of_lt h2)
    · norm_num
  · intro hnd
    refine ⟨hdle hnd, ?_⟩
    rw [ndcg_at_10]
    split_ifs with h1 h2
    · norm_num
    · rw [div_le_one h2]
      exact hdle hnd
    · norm_num

/-- C9 (witness). The bounds at a concrete duplicate-free list and truth
set, with the duplicate-freeness hypothesis of the conditional conjunct
discharged. -/
theorem C9_witness :
    recall_at_10 [1, 2] ({1} : Finset ℕ) ≤ 1 ∧
      precision_at_10 [1, 2] ({1} : Finset ℕ) ≤ 1 ∧
      0 ≤ ndcg_at_10 (fun i => 1 / Real.logb 2 ((i : ℝ) + 2)) [1, 2]
          ({1} : Finset ℕ) ∧
      dcg_at_10 (fun i => 1 / Real.logb 2 ((i : ℝ) + 2)) [1, 2]
          ({1} : Finset ℕ) ≤
        idcg_at_10 (fun i => 1 / Real.logb 2 ((i : ℝ) + 2)) ({1} : Finset ℕ) ∧
      ndcg_at_10 (fun i => 1 / Real.logb 2 ((i : ℝ) + 2)) [1, 2]
        ({1} : Finset ℕ) ≤ 1 := by
  have h := C9_metric_ranges [1, 2] ({1} : Finset ℕ)
  have h4 := h.2.2.2 (by decide)
  exact ⟨h.1, h.2.1, h.2.2.1, h4.1, h4.2⟩

/-! ## Neighbor generation (train_model2.py, lines 189-227)

`NearestNeighbors(n_neighbors=k_neighbors+1, metric="cosine",
algorithm="brute").kneighbors(X_iu)` returns, per item row, the `k+1`
nearest rows by cosine distance. Among exactly tied distances the library
order is unspecified (argpartition/argsort are unstable), so a `kneighbors`
output is modelled as any result satisfying the k-nearest specification.
The code then drops column 0 of the index matrix (`idxs[:, 1:]`) — assuming
it is the item itself — and emits the remaining `k` entries per row as
edges with similarity `1 − distance`. -/

/-- Dot product of two rating vectors. -/
def dotQ (x y : List ℚ) : ℚ := (List.zipWith (· * ·) x y).sum

/-- Squared Euclidean norm of a rating vector. -/
def normSqQ (x : List ℚ) : ℚ := dotQ x x

/-- `res` is a valid `kneighbors` output for `n` items with
`n_neighbors = k+1` under the distance matrix `dist`: each row `i` lists
`k+1` distinct item indices in non-decreasing distance from `i`, and no
omitted index is strictly closer than a listed one. -/
def IsKnnResult {β : Type} [LinearOrder β] (n k : ℕ)
    (dist : Fin n → Fin n → β) (res : Fin n → List (Fin n)) : Prop :=
  ∀ i : Fin n,
    (res i).length = k + 1 ∧ (res i).Nodup ∧
      List.Pairwise (fun a b => dist i a ≤ dist i b) (res i) ∧
      ∀ j : Fin n, j ∉ res i → ∀ j' ∈ res i, dist i j' ≤ dist i j

/-- The edge list emitted from a `kneighbors` result: drop the first column
(`idxs[:, 1:]`), then one `(sourceItem, neighborItem)` pair per remaining
entry, row-major. -/
def knnEdges (n : ℕ) (res : Fin n → List (Fin n)) : List (ℕ × ℕ) :=
  (List.finRange n).flatMap
    (fun i => ((res i).drop 1).map (fun j => (i.val, j.val)))

/-- When all distances from each item are equal, any family of duplicate-free
rows of the right length is a valid `kneighbors` output. -/
theorem isKnn_of_const {β : Type} [LinearOrder β] (n k : ℕ)
    (dist : Fin n → Fin n → β)
    (hconst : ∀ i j j' : Fin n, dist i j = dist i j')
    (res : Fin n → List (Fin n)) (hlen : ∀ i, (res i).length = k + 1)
    (hnd : ∀ i, (res i).Nodup) : IsKnnResult n k dist res := by
  intro i
  refine ⟨hlen i, hnd i, ?_, ?_⟩
  · exact (hnd i).imp (fun _ => le_of_eq (hconst i _ _))
  · intro j _ j' _
    exact le_of_eq (hconst i j' j)

/-- The rating matrix of two items with identical rating vectors (each rated
`1` by the single user). -/
def twoIdenticalItems : Fin 2 → List ℚ := fun _ => [1]

/-- A `kneighbors` output for `twoIdenticalItems` in which each row lists the
*other* item first — legitimate, since both distances are exactly `0`. -/
def knnResSwapped : Fin 2 → List (Fin 2) := fun i =>
  if i = 0 then [1, 0] else [0, 1]

/-- A `kneighbors` output whose rows list the item itself first. -/
def knnResSelfFirst : Fin 2 → List (Fin 2) := fun i =>
  if i = 0 then [0, 1] else [1, 0]

/-- C6 (counterexample). On a rating matrix with two identical item vectors,
a valid cosine `kneighbors` output may order the tied-at-distance-zero
duplicate before the item itself; dropping column 0 then emits the
self-edge `(0, 0)`. -/
theorem C6_counterexample :
    IsKnnResult 2 1
      (fun i j => 1 -
        ((dotQ (twoIdenticalItems i) (twoIdenticalItems j) : ℚ) : ℝ) /
          (Real.sqrt ((normSqQ (twoIdenticalItems i) : ℚ) : ℝ) *
            Real.sqrt ((normSqQ (twoIdenticalItems j) : ℚ) : ℝ)))
      knnResSwapped ∧
      ((0 : ℕ), (0 : ℕ)) ∈ knnEdges 2 knnResSwapped := by
  constructor
  · refine isKnn_of_const 2 1 _ ?_ knnResSwapped ?_ ?_
    · intro i j j'
      rfl
    · intro i
      fin_cases i <;> rfl
    · intro i
      fin_cases i <;> decide
  · decide

/-- C6 (amended). For every valid `kneighbors` output, every source item has
at most `k` emitted edges; and the emitted edge list contains no self-edge
PROVIDED each row of the `kneighbors` result lists the item itself first —
the guarantee the code relies on when dropping column 0, which tied
duplicate rows can defeat. -/
theorem C6_edge_invariants {β : Type} [LinearOrder β] (n k : ℕ)
    (dist : Fin n → Fin n → β) (res : Fin n → List (Fin n))
    (hres : IsKnnResult n k dist res) :
    (∀ src : ℕ,
        ((knnEdges n res).filter (fun e => e.1 = src)).length ≤ k) ∧
      ((∀ i : Fin n, (res i).head? = some i) →
        ∀ e ∈ knnEdges n res, e.1 ≠ e.2) := by
  constructor
  · intro src
    rw [knnEdges, List.filter_flatMap, List.length_flatMap]
    have hblock : ∀ i : Fin n,
        (List.length ∘ fun i : Fin n =>
          (((res i).drop 1).map (fun j => (i.val, j.val))).filter
            (fun e => e.1 = src)) i =
          if i.val = src then k else 0 := by
      intro i
      by_cases hi : i.val = src
      · have hall : (((res i).drop 1).map
            (fun j => (i.val, j.val))).filter (fun e => e.1 = src) =
            ((res i).drop 1).map (fun j => (i.val, j.val)) := by
          apply List.filter_eq_self.mpr
          intro e he
          rw [List.mem_map] at he
          obtain ⟨j, _, rfl⟩ := he
          simp [hi]
        simp only [Function.comp_apply, hall, if_pos hi, List.length_map,
          List.length_drop, (hres i).1]
        omega
      · have hnone : (((res i).drop 1).map
            (fun j => (i.val, j.val))).filter (fun e => e.1 = src) = [] := by
          apply List.filter_eq_nil_iff.mpr
          intro e he
          rw [List.mem_map] at he
          obtain ⟨j, _, rfl⟩ := he
          simp [hi]
        simp only [Function.comp_apply, hnone, if_neg hi, List.length_nil]
    rw [List.map_congr_left (fun i _ => hblock i)]
    have hgen : ∀ l : List (Fin n), l.Nodup →
        (l.map (fun i : Fin n => if i.val = src then k else 0)).sum ≤ k := by
      intro l
      induction l with
      | nil => intro _; simp
      | cons i rest ih =>
          intro hnd
          rw [List.nodup_cons] at hnd
          obtain ⟨hirest, hrest⟩ := hnd
          simp only [List.map_cons, List.sum_cons]
          by_cases hsrc : i.val = src
          · rw [if_pos hsrc]
            have hz : (rest.map
                (fun j : Fin n => if j.val = src then k else 0)).sum = 0 := by
              apply List.sum_eq_zero
              intro x hx
              rw [List.mem_map] at hx
              obtain ⟨j, hj, rfl⟩ := hx
              rw [if_neg]
              intro hjv
              exact hirest (by
                have hj' : j = i := Fin.val_injective (hjv.trans hsrc.symm)
                rwa [hj'] at hj)
            omega
          · rw [if_neg hsrc, zero_add]
            exact ih hrest
    exact hgen (List.finRange n) (List.nodup_finRange n)
  · intro hhead e he
    rw [knnEdges, List.mem_flatMap] at he
    obtain ⟨i, _, he⟩ := he
    rw [List.mem_map] at he
    obtain ⟨j, hj, rfl⟩ := he
    have hlen : (res i).length = k + 1 := (hres i).1
    have hnd : (res i).Nodup := (hres i).2.1
    obtain ⟨a, tail, hcons⟩ : ∃ a tail, res i = a :: tail := by
      cases hres' : res i with
      | nil => rw [hres'] at hlen; simp at hlen
      | cons a tail => exact ⟨a, tail, rfl⟩
    have hai : a = i := by
      have := hhead i
      rw [hcons] at this
      simpa using this
    rw [hcons, List.drop_one, List.tail_cons] at hj
    rw [hcons, hai, List.nodup_cons] at hnd
    have hji : j ≠ i := fun h => hnd.1 (h ▸ hj)
    simpa using fun hv => hji (Fin.val_injective hv.symm)

/-- C6 (witness). At a concrete valid result whose rows are self-first, the
invariants hold: source `0` has at most one edge, and the emitted edge
`(0, 1)` is not a self-edge. -/
theorem C6_witness :
    ((knnEdges 2 knnResSelfFirst).filter (fun e => e.1 = 0)).length ≤ 1 ∧
      (0 : ℕ) ≠ (1 : ℕ) := by
  have hvalid : IsKnnResult 2 1 (fun _ _ => (0 : ℚ)) knnResSelfFirst := by
    refine isKnn_of_const 2 1 _ ?_ knnResSelfFirst ?_ ?_
    · intro i j j'
      rfl
    · intro i
      fin_cases i <;> rfl
    · intro i
      fin_cases i <;> decide
  have h := C6_edge_invariants 2 1 (fun _ _ => (0 : ℚ)) knnResSelfFirst hvalid
  exact ⟨h.1 0, h.2 (by intro i; fin_cases i <;> decide) (0, 1) (by decide)⟩

end RecoFilms
